import Mathlib

/-!
Verification of the mailing-list core of `semlist.py`: the entry tokenizer,
the entry parser, and the batch store (insert, remove, optimize).  Python
functions are embedded shallowly: dictionaries become structures, in-place
list mutation becomes functional list construction, and the two regular
expressions used by the parser are translated into executable full-match
checkers over `List Char`.
-/

set_option maxHeartbeats 1000000

namespace Semlist

/-- One contact record, mirroring the dictionaries stored in the JSON
database: fields `email`, `name`, `full_entry`, `first_name`,
`middle_names`, `last_name`. -/
structure EmailEntry where
  email : String
  name : String
  full_entry : String
  first_name : String
  middle_names : String
  last_name : String
deriving DecidableEq

/-- One batch of the database: the `id` field (1-based sequence number) and
the `emails` list. -/
structure Batch where
  id : Nat
  emails : List EmailEntry
deriving DecidableEq

/-- The batch-capacity constant `MAX_EMAILS_PER_BATCH = 57` of `semlist.py`. -/
def MAX_EMAILS_PER_BATCH : Nat := 57

/-! ### String helpers (Python `str` methods used by the source) -/

/-- Whitespace test, modelling the character class used by Python
`str.strip()` and `\s`. -/
def isWsChar (c : Char) : Bool := c.isWhitespace

/-- Model of Python `str.strip()`: drop whitespace from both ends. -/
def trimWs (l : List Char) : List Char :=
  ((l.dropWhile isWsChar).reverse.dropWhile isWsChar).reverse

/-- Model of Python `str.strip(chars)`: drop the given characters from both
ends. -/
def stripChars (cs : List Char) (l : List Char) : List Char :=
  ((l.dropWhile (fun c => cs.contains c)).reverse.dropWhile
    (fun c => cs.contains c)).reverse

/-- The strip set `" '\""` used by `parse_email_entries` and `parse_name`. -/
def quoteStripSet : List Char := [' ', '\'', '"']

/-- Model of Python `str.lower()`: per-character lowercasing. -/
def lowerStr (s : String) : String := String.mk (s.data.map Char.toLower)

/-! ### The core email regular expression

The source's `email_pattern_core` is
`[a-zA-Z0-9._%+-]+@[a-zA-Z0-9.-]+\.[a-zA-Z]{2,}`.  `matchCore` decides
whether a whole string matches it: since `@` belongs to none of the three
character classes, a matching string decomposes at its first `@`, and the
part after `@` must split at some `.` into a nonempty `[a-zA-Z0-9.-]+` run
and a trailing `[a-zA-Z]{2,}` run. -/

/-- Membership in the local-part class `[a-zA-Z0-9._%+-]`. -/
def isLocalChar (c : Char) : Bool :=
  c.isAlpha || c.isDigit || c == '.' || c == '_' || c == '%' || c == '+' || c == '-'

/-- Membership in the domain class `[a-zA-Z0-9.-]`. -/
def isDomainChar (c : Char) : Bool :=
  c.isAlpha || c.isDigit || c == '.' || c == '-'

/-- Full match of the trailing `[a-zA-Z]{2,}` run. -/
def tldOk (t : List Char) : Bool :=
  decide (2 ≤ t.length) && t.all Char.isAlpha

/-- Full match of `[a-zA-Z0-9.-]+\.[a-zA-Z]{2,}`: some `.` splits the
string into a nonempty domain run and a valid top-level-domain run. -/
def domTldOk (d : List Char) : Bool :=
  (List.range d.length).any fun j =>
    decide (0 < j) && decide (d.get? j = some '.') &&
      (d.take j).all isDomainChar && tldOk (d.drop (j + 1))

/-- Full match of `email_pattern_core`. -/
def matchCore (l : List Char) : Bool :=
  match l.dropWhile (fun c => c != '@') with
  | '@' :: domainPart =>
      (!(l.takeWhile (fun c => c != '@')).isEmpty) &&
        (l.takeWhile (fun c => c != '@')).all isLocalChar && domTldOk domainPart
  | _ => false

/-! ### Entry tokenizer (`parse_email_entries`, step 1)

The source scans the joined input character by character, toggling an
`in_angle_brackets` flag on `<` / `>`, splitting at `;` only when the flag
is false, and flushing the stripped, nonempty fragments in order. -/

/-- Flush the current fragment: keep it, stripped, when nonempty
(Python's `if current_entry.strip(): entries.append(current_entry.strip())`). -/
def flushFrag (cur : List Char) : List String :=
  if String.mk (trimWs cur) ≠ "" then [String.mk (trimWs cur)] else []

/-- The `in_angle_brackets` flag update of the tokenizer loop: set on `<`,
cleared on `>`, untouched otherwise. -/
def updFlag (c : Char) (inAngle : Bool) : Bool :=
  if c == '<' then true else if c == '>' then false else inAngle

/-- The tokenizer loop: `cur` is `current_entry`, the Bool is
`in_angle_brackets`. -/
def tokAux : List Char → List Char → Bool → List String
  | [], cur, _ => flushFrag cur
  | c :: cs, cur, inAngle =>
      if c == ';' && !updFlag c inAngle then
        flushFrag cur ++ tokAux cs [] (updFlag c inAngle)
      else tokAux cs (cur ++ [c]) (updFlag c inAngle)

/-- Tokenization of the joined input string (lines 251-273 of the source). -/
def splitEntries (input : String) : List String := tokAux input.data [] false

/-- Specification-level splitter, following the spec's words: the input is
cut into raw fragments exactly at the semicolons encountered while the
inside-angle-brackets flag is false. -/
def splitUnprot : List Char → Bool → List (List Char)
  | [], _ => [[]]
  | c :: cs, inAngle =>
      if c == ';' && !updFlag c inAngle then [] :: splitUnprot cs (updFlag c inAngle)
      else (splitUnprot cs (updFlag c inAngle)).modifyHead (fun f => c :: f)

/-- Whitespace-trim each raw fragment and drop the empty ones, keeping the
order. -/
def emitFrags (cs : List (List Char)) : List String :=
  (cs.map (fun f => String.mk (trimWs f))).filter (fun s => s != "")

/-- Specification-level tokenizer: the ordered sequence of
whitespace-trimmed, nonempty fragments between unprotected semicolons. -/
def tokenizeSpec (input : String) : List String :=
  emitFrags (splitUnprot input.data false)

/-! ### Entry parser (`parse_email_entries`, step 2, and `parse_name`) -/

/-- Python `str.split()` (split on whitespace runs, dropping empty parts);
the first argument accumulates the current word reversed. -/
def wordsAux : List Char → List Char → List (List Char)
  | [], cur => if cur.isEmpty then [] else [cur.reverse]
  | c :: cs, cur =>
      if isWsChar c then
        (if cur.isEmpty then wordsAux cs [] else cur.reverse :: wordsAux cs [])
      else wordsAux cs (c :: cur)

/-- Python `str.split()` on whitespace. -/
def pySplit (l : List Char) : List (List Char) := wordsAux l []

/-- Result of `parse_name`: first, middle and last name components. -/
structure NameParts where
  first_name : String
  middle_names : String
  last_name : String
deriving DecidableEq

/-- Embedding of `parse_name`: strip quotes and whitespace, split on
whitespace, and distribute the parts.  A nonempty `name` whose `split()` is
empty (whitespace the strip set missed, e.g. a lone tab) falls into the
three-or-more branch of the Python code, which indexes `name_parts[0]` and
raises an uncaught `IndexError`; that reachable crash is modelled as
`none`. -/
def parse_name (full_name : String) : Option NameParts :=
  let name := stripChars quoteStripSet full_name.data
  if name.isEmpty then some ⟨"", "", ""⟩
  else
    match pySplit name with
    | [p] => some ⟨String.mk p, "", ""⟩
    | [p, q] => some ⟨String.mk p, "", String.mk q⟩
    | p :: rest =>
        some ⟨String.mk p,
          String.intercalate " " (rest.dropLast.map (fun w => String.mk w)),
          String.mk (rest.getLast?.getD [])⟩
    | [] => none

/-- Full-match semantics of `name_email_pattern`,
`^(.*?)\s*<(CORE)>$`: the string must end in `>`, the segment between the
last `<` and that `>` must match the core pattern, and the prefix minus its
trailing whitespace (the non-greedy capture of group 1, `\s*` taking the
rest) must contain no newline, since `.` does not match `\n`. -/
def pat1core (l : List Char) : Option (List Char × List Char) :=
  match l.reverse with
  | '>' :: restRev =>
      match restRev.dropWhile (fun c => c != '<') with
      | '<' :: preRev =>
          let email := (restRev.takeWhile (fun c => c != '<')).reverse
          let nameRaw := (preRev.dropWhile isWsChar).reverse
          if matchCore email && !(nameRaw.contains '\n') then some (nameRaw, email)
          else none
      | _ => none
  | _ => none

/-- Full-match semantics of `angle_email_pattern`, `^<(CORE)>$`. -/
def pat2core (l : List Char) : Option (List Char) :=
  match l with
  | '<' :: rest =>
      match rest.reverse with
      | '>' :: midRev => if matchCore midRev.reverse then some midRev.reverse else none
      | _ => none
  | _ => none

/-- Full-match semantics of `plain_email_pattern`, `^(CORE)$`. -/
def pat3core (l : List Char) : Option (List Char) :=
  if matchCore l then some l else none

/-- Python's `$` anchor also matches just before one final newline; a
pattern `^P$` therefore matches the string itself or, when it ends with a
newline, the string minus that newline. -/
def matchDollar {α : Type} (p : List Char → Option α) (l : List Char) : Option α :=
  match p l with
  | some r => some r
  | none => if l.getLast? = some '\n' then p l.dropLast else none

/-- The standardized `"Name" <email>;` / `<email>;` rendering used both by
the parser (`standard_entry`) and by `add_email_entry` (`full_entry`). -/
def mkFullEntry (name email : String) : String :=
  if name ≠ "" then "\"" ++ name ++ "\" <" ++ email ++ ">;"
  else "<" ++ email ++ ">;"

/-- Parsing of one fragment: strip quotes and whitespace, then try the
three patterns in order.  The outer `none` is the uncaught `IndexError`
from `parse_name`; `some none` is an unparseable fragment (warned about and
skipped); `some (some e)` is a parsed entry. -/
def parseFragment (fragment : String) : Option (Option EmailEntry) :=
  let entry := stripChars quoteStripSet fragment.data
  match matchDollar pat1core entry with
  | some (nameRaw, emailRaw) =>
      let full_name := String.mk (stripChars quoteStripSet nameRaw)
      let email := String.mk (trimWs emailRaw)
      match parse_name full_name with
      | none => none
      | some nc =>
          some (some ⟨email, full_name, mkFullEntry full_name email,
            nc.first_name, nc.middle_names, nc.last_name⟩)
  | none =>
      match matchDollar pat2core entry with
      | some emailRaw =>
          let email := String.mk (trimWs emailRaw)
          some (some ⟨email, "", "<" ++ email ++ ">;", "", "", ""⟩)
      | none =>
          match matchDollar pat3core entry with
          | some emailRaw =>
              let email := String.mk (trimWs emailRaw)
              some (some ⟨email, "", "<" ++ email ++ ">;", "", "", ""⟩)
          | none => some none

/-- The parsing loop over the fragments, in order: a raised `IndexError`
aborts the whole call (nothing is returned), an unparseable fragment is
skipped, a parsed entry is appended. -/
def parseFragments : List String → Option (List EmailEntry)
  | [] => some []
  | f :: fs =>
      match parseFragment f with
      | none => none
      | some none => parseFragments fs
      | some (some e) => (parseFragments fs).map (fun r => e :: r)

/-- Embedding of `parse_email_entries`: join the argument list with
spaces, tokenize, and parse each fragment; `none` models the uncaught
`IndexError` escaping the whole function. -/
def parse_email_entries (args : List String) : Option (List EmailEntry) :=
  if args.isEmpty then some []
  else parseFragments (splitEntries (String.intercalate " " args))

/-- Does a fragment match one of the three patterns (and parse without
crashing), so that it contributes an entry? -/
def fragHasEntry (f : String) : Bool :=
  match parseFragment f with
  | some (some _) => true
  | _ => false

/-! ### Batch store -/

/-- All entries of the collection in batch order (the flattening
`all_emails` that several source functions build). -/
def flattenEmails (bs : List Batch) : List EmailEntry :=
  (bs.map (fun b => b.emails)).flatten

/-- Embedding of `is_email_exists`: case-insensitive membership over every
batch. -/
def is_email_exists (email : String) (bs : List Batch) : Bool :=
  bs.any fun b => b.emails.any fun en => lowerStr en.email == lowerStr email

/-- The entry dictionary `add_email_entry` builds before inserting: same
fields, but `full_entry` re-rendered from `name` and `email`. -/
def storedEntry (e : EmailEntry) : EmailEntry :=
  { email := e.email, name := e.name, full_entry := mkFullEntry e.name e.email,
    first_name := e.first_name, middle_names := e.middle_names,
    last_name := e.last_name }

/-- In-place `data["batches"][-1]["emails"].append(new_entry)`: extend the
last batch's entry list. -/
def appendToLast (x : EmailEntry) : List Batch → List Batch
  | [] => []
  | [b] => [{ id := b.id, emails := b.emails ++ [x] }]
  | b :: bs => b :: appendToLast x bs

/-- The guard `data["batches"] and len(data["batches"][-1]["emails"]) <
MAX_EMAILS_PER_BATCH` of `add_email_entry`. -/
def lastHasRoom (bs : List Batch) : Bool :=
  match bs.getLast? with
  | some b => decide (b.emails.length < MAX_EMAILS_PER_BATCH)
  | none => false

/-- Embedding of `add_email_entry`: reject duplicates; otherwise append to
the last batch when it has room, else open a new batch with id
`len(batches) + 1`. -/
def add_email_entry (e : EmailEntry) (bs : List Batch) : Bool × List Batch :=
  if is_email_exists e.email bs then (false, bs)
  else if lastHasRoom bs then (true, appendToLast (storedEntry e) bs)
  else (true, bs ++ [{ id := bs.length + 1, emails := [storedEntry e] }])

/-- Removal of the first matching entry of one batch (`batch["emails"].pop(i)`
at the first index whose email matches, case-insensitively). -/
def popFirst (low : String) : List EmailEntry → Option (List EmailEntry)
  | [] => none
  | en :: rest =>
      if lowerStr en.email == low then some rest
      else (popFirst low rest).map (fun r => en :: r)

/-- Removal of the first matching entry across the batches in order
(`remove_email` breaks out of both loops after the first hit). -/
def removeFirstBatches (low : String) : List Batch → Option (List Batch)
  | [] => none
  | b :: bs =>
      match popFirst low b.emails with
      | some es => some ({ id := b.id, emails := es } :: bs)
      | none => (removeFirstBatches low bs).map (fun r => b :: r)

/-- The renumbering loop of `remove_email`:
`for i, batch in enumerate(data["batches"], 1): batch["id"] = i`. -/
def renumberFrom (n : Nat) : List Batch → List Batch
  | [] => []
  | b :: bs => { id := n, emails := b.emails } :: renumberFrom (n + 1) bs

/-- Embedding of `remove_email`: remove the first case-insensitive match,
drop every batch left without emails, and renumber the ids from 1.  When no
entry matches, the function returns `False` before touching the batches. -/
def remove_email (email : String) (bs : List Batch) : Bool × List Batch :=
  match removeFirstBatches (lowerStr email) bs with
  | none => (false, bs)
  | some bs2 => (true, renumberFrom 1 (bs2.filter (fun b => !b.emails.isEmpty)))

/-- The re-chunking loop of `optimize_batches`: `acc` is
`optimized_batches`, `cur` is `current_batch`; a full buffer is flushed
(with id `len(optimized_batches) + 1`) before the next entry is appended,
and a nonempty final buffer is flushed at the end. -/
def optLoop (maxPer : Nat) : List EmailEntry → List Batch → List EmailEntry → List Batch
  | [], acc, cur =>
      if cur.isEmpty then acc else acc ++ [{ id := acc.length + 1, emails := cur }]
  | e :: rest, acc, cur =>
      if maxPer ≤ cur.length then
        optLoop maxPer rest (acc ++ [{ id := acc.length + 1, emails := cur }]) [e]
      else optLoop maxPer rest acc (cur ++ [e])

/-- Embedding of `optimize_batches`: flatten all entries and re-chunk them
(`optimize_command` calls it with the default `max_per_batch = 57`). -/
def optimize_batches (maxPer : Nat) (bs : List Batch) : List Batch :=
  optLoop maxPer (flattenEmails bs) [] []

/-- The inner placement loop of `add_emails_to_database`: the entry goes
into the first batch with fewer than `MAX_EMAILS_PER_BATCH` entries, or
nowhere when every batch is full. -/
def firstFit (x : EmailEntry) : List Batch → Option (List Batch)
  | [] => none
  | b :: bs =>
      if b.emails.length < MAX_EMAILS_PER_BATCH then
        some ({ id := b.id, emails := b.emails ++ [x] } :: bs)
      else (firstFit x bs).map (fun r => b :: r)

/-- The id `max([b.get("id", 0) for b in batches] + [0]) + 1` that
`add_emails_to_database` gives a freshly created batch. -/
def newBatchId (bs : List Batch) : Nat :=
  (bs.map (fun b => b.id)).foldl Nat.max 0 + 1

/-- One placement step of `add_emails_to_database`: first-fit, or a new
batch with id `newBatchId` when every existing batch is full. -/
def addOneFirstFit (x : EmailEntry) (bs : List Batch) : List Batch :=
  match firstFit x bs with
  | some r => r
  | none => bs ++ [{ id := newBatchId bs, emails := [x] }]

/-- The set `existing_emails_lower` built by `add_emails_to_database`: the
lowercased emails of all stored entries with a truthy (nonempty) email. -/
def existingLower (bs : List Batch) : List String :=
  (flattenEmails bs).filterMap
    (fun en => if en.email ≠ "" then some (lowerStr en.email) else none)

/-- The duplicate filter of `add_emails_to_database`: keep entries with a
nonempty email not yet seen, and record each kept email immediately so
duplicates inside the input list are dropped too. -/
def filterNewEmails : List EmailEntry → List String → List EmailEntry
  | [], _ => []
  | e :: rest, seen =>
      if e.email != "" && !(seen.contains (lowerStr e.email)) then
        e :: filterNewEmails rest (lowerStr e.email :: seen)
      else filterNewEmails rest seen

/-- Embedding of `add_emails_to_database` (its in-memory effect on the
batches): filter the input against the existing emails, then place each
kept entry by first fit. -/
def add_emails_to_database (es : List EmailEntry) (bs : List Batch) : List Batch :=
  (filterNewEmails es (existingLower bs)).foldl (fun acc x => addOneFirstFit x acc) bs

/-- Does some entry of the batch match the (already lowercased) email? -/
def batchHasMatch (low : String) (b : Batch) : Bool :=
  b.emails.any (fun en => lowerStr en.email == low)

/-- One batch after `remove_email_from_database` filtered it: every
case-insensitive match removed, id unchanged. -/
def scrubBatch (low : String) (b : Batch) : Batch :=
  { id := b.id, emails := b.emails.filter (fun en => lowerStr en.email != low) }

/-- Embedding of `remove_email_from_database`: validate the email, remove
every case-insensitive match from every batch, and drop the batches that
became empty, keeping the original ids of the remaining batches (the source
comments: "For simplicity, we currently keep original IDs"). -/
def remove_email_from_database (email : String) (bs : List Batch) : Bool × List Batch :=
  if email == "" || !(email.data.contains '@') then (false, bs)
  else
    let low := lowerStr email
    if bs.any (batchHasMatch low) then
      (true, bs.filterMap (fun b =>
        let b2 := scrubBatch low b
        if batchHasMatch low b && b2.emails.isEmpty then none else some b2))
    else (false, bs)

/-! ### Specification-level predicates -/

/-- Batch sequence numbers are contiguous `1..N` in order. -/
def contiguousIds (bs : List Batch) : Prop :=
  bs.map (fun b => b.id) = List.range' 1 bs.length

/-- Two entries with distinct emails up to case. -/
def lowNe (a b : EmailEntry) : Prop := lowerStr a.email ≠ lowerStr b.email

/-- Case-insensitive uniqueness of stored emails across the whole
collection. -/
def UniqueEmails (bs : List Batch) : Prop := (flattenEmails bs).Pairwise lowNe

/-- Collections reachable from an empty database by the add, remove and
optimize operations of the source. -/
inductive Reachable : List Batch → Prop
  | empty : Reachable []
  | addOne (e : EmailEntry) (bs : List Batch) :
      Reachable bs → Reachable (add_email_entry e bs).2
  | addMany (es : List EmailEntry) (bs : List Batch) :
      Reachable bs → Reachable (add_emails_to_database es bs)
  | remOne (s : String) (bs : List Batch) :
      Reachable bs → Reachable (remove_email s bs).2
  | remMany (s : String) (bs : List Batch) :
      Reachable bs → Reachable (remove_email_from_database s bs).2
  | opt (bs : List Batch) :
      Reachable bs → Reachable (optimize_batches 57 bs)

/-! ### Lemmas about `optimize_batches` -/

/-- The chunk contents produced by the `optimize_batches` loop, without the
id bookkeeping. -/
def chunkFrom (k : Nat) : List EmailEntry → List EmailEntry → List (List EmailEntry)
  | cur, [] => if cur.isEmpty then [] else [cur]
  | cur, e :: rest =>
      if k ≤ cur.length then cur :: chunkFrom k [e] rest
      else chunkFrom k (cur ++ [e]) rest

/-- Batches with ids `n+1, n+2, ...` wrapping the given chunk contents. -/
def tagFrom (n : Nat) : List (List EmailEntry) → List Batch
  | [] => []
  | c :: cs => { id := n + 1, emails := c } :: tagFrom (n + 1) cs

theorem tagFrom_emails (n : Nat) (cs : List (List EmailEntry)) :
    (tagFrom n cs).map (fun b => b.emails) = cs := by
  induction cs generalizing n with
  | nil => rfl
  | cons c cs ih => simp [tagFrom, ih]

theorem tagFrom_length (n : Nat) (cs : List (List EmailEntry)) :
    (tagFrom n cs).length = cs.length := by
  induction cs generalizing n with
  | nil => rfl
  | cons c cs ih => simp [tagFrom, ih]

theorem tagFrom_map_id (n : Nat) (cs : List (List EmailEntry)) :
    (tagFrom n cs).map (fun b => b.id) = List.range' (n + 1) cs.length := by
  induction cs generalizing n with
  | nil => rfl
  | cons c cs ih => simp [tagFrom, ih, List.range'_succ]

theorem optLoop_eq (k : Nat) (l : List EmailEntry) (acc : List Batch)
    (cur : List EmailEntry) :
    optLoop k l acc cur = acc ++ tagFrom acc.length (chunkFrom k cur l) := by
  induction l generalizing acc cur with
  | nil =>
      simp only [optLoop, chunkFrom]
      split <;> simp [tagFrom]
  | cons e rest ih =>
      simp only [optLoop, chunkFrom]
      split
      · rw [ih]
        simp [tagFrom, List.append_assoc]
      · exact ih _ _

theorem optimize_batches_eq (k : Nat) (bs : List Batch) :
    optimize_batches k bs = tagFrom 0 (chunkFrom k [] (flattenEmails bs)) := by
  simpa [optimize_batches] using optLoop_eq k (flattenEmails bs) [] []

theorem chunkFrom_flatten (k : Nat) (l cur : List EmailEntry) :
    (chunkFrom k cur l).flatten = cur ++ l := by
  induction l generalizing cur with
  | nil =>
      simp only [chunkFrom]
      split
      · simp_all [List.isEmpty_iff]
      · simp
  | cons e rest ih =>
      simp only [chunkFrom]
      split
      · simp [ih]
      · simp [ih]

theorem chunkFrom_ne_nil (k : Nat) (l cur : List EmailEntry) (h : cur ≠ []) :
    chunkFrom k cur l ≠ [] := by
  induction l generalizing cur with
  | nil =>
      simp only [chunkFrom]
      rw [if_neg (by simpa [List.isEmpty_iff] using h)]
      simp
  | cons e rest ih =>
      simp only [chunkFrom]
      split
      · simp
      · exact ih _ (by simp)

theorem chunkFrom_sizes (k : Nat) (hk : 1 ≤ k) (l cur : List EmailEntry)
    (hcur : cur.length ≤ k) :
    (∀ c ∈ (chunkFrom k cur l).dropLast, c.length = k) ∧
      (∀ c ∈ chunkFrom k cur l, c.length ≤ k) := by
  induction l generalizing cur with
  | nil =>
      constructor
      · intro c hc
        simp only [chunkFrom] at hc
        split at hc <;> simp_all
      · intro c hc
        simp only [chunkFrom] at hc
        split at hc <;> simp_all
  | cons e rest ih =>
      constructor
      · intro c hc
        simp only [chunkFrom] at hc
        split at hc
        · rename_i hfull
          have hne : chunkFrom k [e] rest ≠ [] := chunkFrom_ne_nil k rest [e] (by simp)
          rw [List.dropLast_cons_of_ne_nil hne] at hc
          rcases List.mem_cons.mp hc with hc | hc
          · subst hc; omega
          · exact (ih [e] (by simpa using hk)).1 c hc
        · rename_i hroom
          exact (ih (cur ++ [e]) (by simp; omega)).1 c hc
      · intro c hc
        simp only [chunkFrom] at hc
        split at hc
        · rcases List.mem_cons.mp hc with hc | hc
          · subst hc; omega
          · exact (ih [e] (by simpa using hk)).2 c hc
        · rename_i hroom
          exact (ih (cur ++ [e]) (by simp; omega)).2 c hc

theorem optimize_preserves_flatten (k : Nat) (bs : List Batch) :
    flattenEmails (optimize_batches k bs) = flattenEmails bs := by
  rw [optimize_batches_eq]
  show ((tagFrom 0 (chunkFrom k [] (flattenEmails bs))).map (fun b => b.emails)).flatten = _
  rw [tagFrom_emails, chunkFrom_flatten]
  simp

/-! ### Example entries used by witnesses and counterexamples -/

/-- Example entry `a@b.com`. -/
def exA : EmailEntry := ⟨"a@b.com", "", "", "", "", ""⟩

/-- Example entry `c@d.com`. -/
def exB : EmailEntry := ⟨"c@d.com", "", "", "", "", ""⟩

/-- Example entry `e@f.com`. -/
def exC : EmailEntry := ⟨"e@f.com", "", "", "", "", ""⟩

/-- Example two-batch collection `[[a@b.com], [c@d.com]]`. -/
def exColl : List Batch := [{ id := 1, emails := [exA] }, { id := 2, emails := [exB] }]

/-! ### Claims C3, C4, C5 -/

/-- C3: for every collection state, concatenating the entries of all
batches after `optimize_batches` yields exactly the same sequence of
entries (same elements, same relative order) as before. -/
theorem C3_optimize_preserves_entry_sequence (k : Nat) (bs : List Batch) :
    flattenEmails (optimize_batches k bs) = flattenEmails bs :=
  optimize_preserves_flatten k bs

/-- C4: after `optimize_batches` at capacity `MAX_EMAILS_PER_BATCH`, every
batch except possibly the last has exactly `MAX_EMAILS_PER_BATCH` entries,
no batch has more, and the batch ids are `1..N` consecutively. -/
theorem C4_optimize_batch_sizes (bs : List Batch) :
    (∀ b ∈ (optimize_batches MAX_EMAILS_PER_BATCH bs).dropLast,
        b.emails.length = MAX_EMAILS_PER_BATCH) ∧
      (∀ b ∈ optimize_batches MAX_EMAILS_PER_BATCH bs,
        b.emails.length ≤ MAX_EMAILS_PER_BATCH) ∧
      (optimize_batches MAX_EMAILS_PER_BATCH bs).map (fun b => b.id) =
        List.range' 1 (optimize_batches MAX_EMAILS_PER_BATCH bs).length := by
  have hs := chunkFrom_sizes MAX_EMAILS_PER_BATCH (by norm_num [MAX_EMAILS_PER_BATCH])
    (flattenEmails bs) [] (by simp)
  rw [optimize_batches_eq]
  refine ⟨?_, ?_, ?_⟩
  · intro b hb
    have hmem : b.emails ∈
        ((tagFrom 0 (chunkFrom MAX_EMAILS_PER_BATCH [] (flattenEmails bs))).map
          (fun b => b.emails)).dropLast := by
      rw [← List.map_dropLast]
      exact List.mem_map_of_mem _ hb
    rw [tagFrom_emails] at hmem
    exact hs.1 _ hmem
  · intro b hb
    have hmem : b.emails ∈
        (tagFrom 0 (chunkFrom MAX_EMAILS_PER_BATCH [] (flattenEmails bs))).map
          (fun b => b.emails) := List.mem_map_of_mem _ hb
    rw [tagFrom_emails] at hmem
    exact hs.2 _ hmem
  · rw [tagFrom_map_id, tagFrom_length]

/-- Witness for C4 at a concrete 58-entry collection: the first batch of
the optimized result carries exactly `MAX_EMAILS_PER_BATCH` entries. -/
theorem C4_witness :
    ({ id := 1, emails := List.replicate 57 exA } : Batch).emails.length =
      MAX_EMAILS_PER_BATCH :=
  (C4_optimize_batch_sizes [{ id := 1, emails := List.replicate 58 exA }]).1
    _ (by decide)

/-- C5: `optimize_batches` is idempotent: a second application returns
exactly the same batches (boundaries, contents and ids). -/
theorem C5_optimize_idempotent (k : Nat) (bs : List Batch) :
    optimize_batches k (optimize_batches k bs) = optimize_batches k bs := by
  rw [optimize_batches_eq k (optimize_batches k bs), optimize_preserves_flatten,
    ← optimize_batches_eq]

/-! ### Claim C6: failed mutations -/

theorem is_email_exists_false_iff (em : String) (bs : List Batch) :
    is_email_exists em bs = false ↔
      ∀ b ∈ bs, ∀ en ∈ b.emails, lowerStr en.email ≠ lowerStr em := by
  simp [is_email_exists]

theorem popFirst_eq_none (low : String) (l : List EmailEntry)
    (h : ∀ en ∈ l, lowerStr en.email ≠ low) : popFirst low l = none := by
  induction l with
  | nil => rfl
  | cons en rest ih =>
      simp only [popFirst]
      rw [if_neg (by simpa using h en (by simp)), ih (fun x hx => h x (by simp [hx]))]
      rfl

theorem removeFirstBatches_eq_none (low : String) (bs : List Batch)
    (h : ∀ b ∈ bs, ∀ en ∈ b.emails, lowerStr en.email ≠ low) :
    removeFirstBatches low bs = none := by
  induction bs with
  | nil => rfl
  | cons b rest ih =>
      simp only [removeFirstBatches]
      rw [popFirst_eq_none low b.emails (h b (by simp)),
        ih (fun x hx => h x (by simp [hx]))]
      rfl

/-- C6: a duplicate insert reports failure and leaves the batches
untouched, and removing an email no stored entry has (case-insensitively)
reports failure and leaves the batches untouched. -/
theorem C6_failed_mutations_no_change (e : EmailEntry) (s : String)
    (bs bs2 : List Batch) :
    (is_email_exists e.email bs = true → add_email_entry e bs = (false, bs)) ∧
      (is_email_exists s bs2 = false → remove_email s bs2 = (false, bs2)) := by
  constructor
  · intro h
    simp [add_email_entry, h]
  · intro h
    have hnone : removeFirstBatches (lowerStr s) bs2 = none :=
      removeFirstBatches_eq_none _ _ ((is_email_exists_false_iff s bs2).mp h)
    simp [remove_email, hnone]

/-- Witness for C6: a duplicate insert of `a@b.com` and a removal of the
absent `x@y.zz` both fail without changing the one-batch collection. -/
theorem C6_witness :
    add_email_entry exA [{ id := 1, emails := [exA] }] =
        (false, [{ id := 1, emails := [exA] }]) ∧
      remove_email "x@y.zz" [{ id := 1, emails := [exA] }] =
        (false, [{ id := 1, emails := [exA] }]) :=
  ⟨(C6_failed_mutations_no_change exA "x@y.zz" [{ id := 1, emails := [exA] }]
      [{ id := 1, emails := [exA] }]).1 (by decide),
    (C6_failed_mutations_no_change exA "x@y.zz" [{ id := 1, emails := [exA] }]
      [{ id := 1, emails := [exA] }]).2 (by decide)⟩

/-! ### Claim C1: insert placement -/

theorem appendToLast_cons_of_ne_nil (x : EmailEntry) (a : Batch) (l : List Batch)
    (h : l ≠ []) : appendToLast x (a :: l) = a :: appendToLast x l := by
  cases l with
  | nil => exact absurd rfl h
  | cons b bs => rfl

theorem appendToLast_concat (x : EmailEntry) (pre : List Batch) (lb : Batch) :
    appendToLast x (pre ++ [lb]) =
      pre ++ [{ id := lb.id, emails := lb.emails ++ [x] }] := by
  induction pre with
  | nil => rfl
  | cons p pre ih =>
      rw [List.cons_append, appendToLast_cons_of_ne_nil x p (pre ++ [lb]) (by simp), ih]
      rfl

theorem lastHasRoom_concat (pre : List Batch) (lb : Batch) :
    lastHasRoom (pre ++ [lb]) = decide (lb.emails.length < MAX_EMAILS_PER_BATCH) := by
  simp [lastHasRoom, List.getLast?_concat]

theorem firstFit_eq_some (x : EmailEntry) (pre : List Batch) (b : Batch)
    (post : List Batch) (hpre : ∀ p ∈ pre, MAX_EMAILS_PER_BATCH ≤ p.emails.length)
    (hb : b.emails.length < MAX_EMAILS_PER_BATCH) :
    firstFit x (pre ++ b :: post) =
      some (pre ++ { id := b.id, emails := b.emails ++ [x] } :: post) := by
  induction pre with
  | nil => simp [firstFit, hb]
  | cons p pre ih =>
      have hp : ¬ p.emails.length < MAX_EMAILS_PER_BATCH := by
        have := hpre p (by simp); omega
      rw [List.cons_append, firstFit, if_neg hp,
        ih (fun q hq => hpre q (by simp [hq]))]
      rfl

theorem firstFit_eq_none (x : EmailEntry) (bs : List Batch)
    (h : ∀ b ∈ bs, MAX_EMAILS_PER_BATCH ≤ b.emails.length) :
    firstFit x bs = none := by
  induction bs with
  | nil => rfl
  | cons b rest ih =>
      have hb : ¬ b.emails.length < MAX_EMAILS_PER_BATCH := by
        have := h b (by simp); omega
      rw [firstFit, if_neg hb, ih (fun q hq => h q (by simp [hq]))]
      rfl

theorem mem_existingLower (s : String) (bs : List Batch) :
    s ∈ existingLower bs ↔
      ∃ en ∈ flattenEmails bs, en.email ≠ "" ∧ lowerStr en.email = s := by
  simp only [existingLower, List.mem_filterMap]
  constructor
  · rintro ⟨en, hen, hs⟩
    by_cases hne : en.email = "" <;> simp [hne] at hs
    exact ⟨en, hen, hne, hs⟩
  · rintro ⟨en, hen, hne, hs⟩
    exact ⟨en, hen, by simp [hne, hs]⟩

theorem not_exists_not_in_existingLower (em : String) (bs : List Batch)
    (h : is_email_exists em bs = false) : lowerStr em ∉ existingLower bs := by
  intro hmem
  rcases (mem_existingLower _ bs).mp hmem with ⟨en, hen, -, hlow⟩
  rcases List.mem_flatten.mp hen with ⟨es, hes, hin⟩
  rcases List.mem_map.mp hes with ⟨b, hb, rfl⟩
  exact (is_email_exists_false_iff em bs).mp h b hb en hin hlow

/-- C1 counterexample: in the two-batch collection `[[a@b.com], [c@d.com]]`
the last batch has room, yet `add_emails_to_database` puts the new entry
`e@f.com` into the *first* batch, not into the last one as the claim
states. -/
theorem C1_counterexample_first_fit :
    add_emails_to_database [exC] [{ id := 1, emails := [exA] }, { id := 2, emails := [exB] }] =
        [{ id := 1, emails := [exA, exC] }, { id := 2, emails := [exB] }] ∧
      add_emails_to_database [exC] [{ id := 1, emails := [exA] }, { id := 2, emails := [exB] }] ≠
        [{ id := 1, emails := [exA] }, { id := 2, emails := [exB, exC] }] := by
  constructor
  · decide
  · decide

/-- C1 amended: for a non-duplicate entry, `add_email_entry` appends to the
last batch when it has fewer than `MAX_EMAILS_PER_BATCH` entries and
otherwise (no batches, or last batch at or above the limit) opens a new
batch with id `len(batches) + 1`; `add_emails_to_database`, by contrast,
appends the entry to the *first* batch with fewer than
`MAX_EMAILS_PER_BATCH` entries, and only when every batch is full opens a
new batch, with id `max(ids) + 1`. -/
theorem C1_amended_insert_placement (e : EmailEntry) (bs : List Batch)
    (h : is_email_exists e.email bs = false) :
    (∀ pre lb, bs = pre ++ [lb] → lb.emails.length < MAX_EMAILS_PER_BATCH →
        add_email_entry e bs =
          (true, pre ++ [{ id := lb.id, emails := lb.emails ++ [storedEntry e] }])) ∧
      ((bs = [] ∨ ∃ pre lb, bs = pre ++ [lb] ∧
            MAX_EMAILS_PER_BATCH ≤ lb.emails.length) →
        add_email_entry e bs =
          (true, bs ++ [{ id := bs.length + 1, emails := [storedEntry e] }])) ∧
      (∀ pre b post, bs = pre ++ b :: post →
        (∀ p ∈ pre, MAX_EMAILS_PER_BATCH ≤ p.emails.length) →
        b.emails.length < MAX_EMAILS_PER_BATCH → e.email ≠ "" →
        add_emails_to_database [e] bs =
          pre ++ { id := b.id, emails := b.emails ++ [e] } :: post) ∧
      ((∀ b ∈ bs, MAX_EMAILS_PER_BATCH ≤ b.emails.length) → e.email ≠ "" →
        add_emails_to_database [e] bs =
          bs ++ [{ id := newBatchId bs, emails := [e] }]) := by
  have hsingle : ∀ hne : e.email ≠ "",
      add_emails_to_database [e] bs = addOneFirstFit e bs := by
    intro hne
    have hmem : lowerStr e.email ∉ existingLower bs :=
      not_exists_not_in_existingLower e.email bs h
    simp [add_emails_to_database, filterNewEmails, hne, hmem]
  refine ⟨?_, ?_, ?_, ?_⟩
  · rintro pre lb rfl hroom
    rw [add_email_entry, if_neg (by simp [h]),
      if_pos (by rw [lastHasRoom_concat]; exact decide_eq_true hroom),
      appendToLast_concat]
  · rintro (rfl | ⟨pre, lb, rfl, hfull⟩)
    · rfl
    · rw [add_email_entry, if_neg (by simp [h]),
        if_neg (by rw [lastHasRoom_concat]; simpa using hfull)]
  · rintro pre b post rfl hpre hroom hne
    rw [hsingle hne, addOneFirstFit, firstFit_eq_some e pre b post hpre hroom]
  · intro hfull hne
    rw [hsingle hne, addOneFirstFit, firstFit_eq_none e bs hfull]

/-- Witness for C1 amended: inserting `a@b.com` into the one-batch
collection `[[c@d.com]]` appends to that (last) batch. -/
theorem C1_witness :
    add_email_entry exA [{ id := 1, emails := [exB] }] =
      (true, [{ id := 1, emails := [exB, storedEntry exA] }]) :=
  (C1_amended_insert_placement exA [{ id := 1, emails := [exB] }] (by decide)).1
    [] { id := 1, emails := [exB] } rfl (by decide)

/-! ### Claim C2: contiguity of batch ids -/

instance (bs : List Batch) : Decidable (contiguousIds bs) := by
  unfold contiguousIds
  infer_instance

theorem renumberFrom_map_id (n : Nat) (bs : List Batch) :
    (renumberFrom n bs).map (fun b => b.id) = List.range' n bs.length := by
  induction bs generalizing n with
  | nil => rfl
  | cons b rest ih => simp [renumberFrom, ih, List.range'_succ]

theorem renumberFrom_length (n : Nat) (bs : List Batch) :
    (renumberFrom n bs).length = bs.length := by
  induction bs generalizing n with
  | nil => rfl
  | cons b rest ih => simp [renumberFrom, ih]

theorem contiguousIds_renumberFrom (bs : List Batch) :
    contiguousIds (renumberFrom 1 bs) := by
  unfold contiguousIds
  rw [renumberFrom_map_id, renumberFrom_length]

theorem appendToLast_map_id (x : EmailEntry) (bs : List Batch) :
    (appendToLast x bs).map (fun b => b.id) = bs.map (fun b => b.id) := by
  induction bs with
  | nil => rfl
  | cons b rest ih =>
      cases rest with
      | nil => rfl
      | cons c cs =>
          rw [appendToLast_cons_of_ne_nil x b (c :: cs) (by simp)]
          simp only [List.map_cons]
          rw [ih]
          simp

theorem appendToLast_length (x : EmailEntry) (bs : List Batch) :
    (appendToLast x bs).length = bs.length := by
  induction bs with
  | nil => rfl
  | cons b rest ih =>
      cases rest with
      | nil => rfl
      | cons c cs =>
          rw [appendToLast_cons_of_ne_nil x b (c :: cs) (by simp)]
          simp only [List.length_cons]
          rw [ih]
          simp

theorem contiguousIds_add_email_entry (e : EmailEntry) (bs : List Batch)
    (h : contiguousIds bs) : contiguousIds (add_email_entry e bs).2 := by
  unfold add_email_entry
  split
  · exact h
  · split
    · unfold contiguousIds at h ⊢
      rw [appendToLast_map_id, appendToLast_length]
      exact h
    · unfold contiguousIds at h ⊢
      simp only [List.map_append, List.length_append, List.map_cons, List.map_nil,
        List.length_cons, List.length_nil]
      rw [h, List.range'_1_concat]
      simp [Nat.add_comm]

theorem foldl_max_range' (n s a : Nat) (h : a ≤ s) :
    (List.range' s n).foldl Nat.max a = if n = 0 then a else s + n - 1 := by
  induction n generalizing s a with
  | zero => simp
  | succ m ih =>
      have hmax : Nat.max a s = s := Nat.max_eq_right h
      rw [List.range'_succ, List.foldl_cons, hmax, ih (s + 1) s (by omega),
        if_neg (by omega : ¬ (m + 1 = 0))]
      split <;> omega

theorem newBatchId_of_contiguous (bs : List Batch) (h : contiguousIds bs) :
    newBatchId bs = bs.length + 1 := by
  unfold newBatchId
  rw [h, foldl_max_range' bs.length 1 0 (by omega)]
  split <;> omega

theorem firstFit_ids (x : EmailEntry) (bs r : List Batch)
    (h : firstFit x bs = some r) :
    r.map (fun b => b.id) = bs.map (fun b => b.id) := by
  induction bs generalizing r with
  | nil => simp [firstFit] at h
  | cons b rest ih =>
      unfold firstFit at h
      split at h
      · cases h
        simp
      · cases hr : firstFit x rest with
        | none => rw [hr] at h; simp at h
        | some r2 =>
            rw [hr] at h
            have h2 : b :: r2 = r := by simpa using h
            subst h2
            simp [ih r2 hr]

theorem contiguousIds_addOneFirstFit (x : EmailEntry) (bs : List Batch)
    (h : contiguousIds bs) : contiguousIds (addOneFirstFit x bs) := by
  unfold addOneFirstFit
  cases hf : firstFit x bs with
  | some r =>
      unfold contiguousIds at h ⊢
      have hlen : r.length = bs.length := by
        have := congrArg List.length (firstFit_ids x bs r hf)
        simpa using this
      rw [firstFit_ids x bs r hf, hlen]
      exact h
  | none =>
      unfold contiguousIds at h ⊢
      simp only [List.map_append, List.length_append, List.map_cons, List.map_nil,
        List.length_cons, List.length_nil]
      rw [h, newBatchId_of_contiguous bs h, List.range'_1_concat]
      simp [Nat.add_comm]

theorem contiguousIds_foldl_addOneFirstFit (ts : List EmailEntry) (bs : List Batch)
    (h : contiguousIds bs) :
    contiguousIds (ts.foldl (fun acc x => addOneFirstFit x acc) bs) := by
  induction ts generalizing bs with
  | nil => exact h
  | cons t ts ih => exact ih _ (contiguousIds_addOneFirstFit t bs h)

theorem contiguousIds_optimize (k : Nat) (bs : List Batch) :
    contiguousIds (optimize_batches k bs) := by
  unfold contiguousIds
  rw [optimize_batches_eq, tagFrom_map_id, tagFrom_length]

theorem filterMap_scrub_ids_sublist (low : String) (bs : List Batch) :
    ((bs.filterMap (fun b =>
        if batchHasMatch low b && (scrubBatch low b).emails.isEmpty then none
        else some (scrubBatch low b))).map (fun b => b.id)).Sublist
      (bs.map (fun b => b.id)) := by
  induction bs with
  | nil => simp
  | cons b rest ih =>
      rw [List.filterMap_cons]
      by_cases hcond :
          (batchHasMatch low b && (scrubBatch low b).emails.isEmpty) = true
      · rw [if_pos hcond]
        exact ih.trans (List.sublist_cons_self _ _)
      · rw [if_neg hcond]
        simp only [List.map_cons]
        have hid : (scrubBatch low b).id = b.id := rfl
        rw [hid]
        exact ih.cons₂ _

theorem remove_db_ids_sublist (s : String) (bs : List Batch) :
    ((remove_email_from_database s bs).2.map (fun b => b.id)).Sublist
      (bs.map (fun b => b.id)) := by
  simp only [remove_email_from_database]
  split
  · exact List.Sublist.refl _
  · split
    · exact filterMap_scrub_ids_sublist (lowerStr s) bs
    · exact List.Sublist.refl _

/-- C2 counterexample: removing `a@b.com` from the collection
`[[a@b.com], [c@d.com]]` with `remove_email_from_database` empties and
deletes batch 1, but the surviving batch keeps id 2, so the sequence
numbers are no longer contiguous from 1. -/
theorem C2_counterexample_gap :
    (remove_email_from_database "a@b.com" exColl).2 =
        [({ id := 2, emails := [exB] } : Batch)] ∧
      ¬ contiguousIds [({ id := 2, emails := [exB] } : Batch)] := by
  constructor
  · decide
  · decide

/-- C2 amended: `add_email_entry`, `add_emails_to_database`, `remove_email`
and `optimize_batches` keep the batch ids contiguous `1..N`;
`remove_email_from_database`, however, deletes emptied batches *without*
renumbering — the surviving ids are merely an order-preserving
subsequence of the original ids, so contiguity can be lost. -/
theorem C2_amended_contiguity (e : EmailEntry) (es : List EmailEntry) (s : String)
    (k : Nat) (bs : List Batch) (h : contiguousIds bs) :
    contiguousIds (add_email_entry e bs).2 ∧
      contiguousIds (add_emails_to_database es bs) ∧
      contiguousIds (remove_email s bs).2 ∧
      contiguousIds (optimize_batches k bs) ∧
      ((remove_email_from_database s bs).2.map (fun b => b.id)).Sublist
        (bs.map (fun b => b.id)) := by
  refine ⟨contiguousIds_add_email_entry e bs h, ?_, ?_, contiguousIds_optimize k bs,
    remove_db_ids_sublist s bs⟩
  · exact contiguousIds_foldl_addOneFirstFit _ bs h
  · unfold remove_email
    cases hr : removeFirstBatches (lowerStr s) bs with
    | none => exact h
    | some bs2 => exact contiguousIds_renumberFrom _

/-- Witness for C2 amended, at the concrete collection
`[[a@b.com], [c@d.com]]`. -/
theorem C2_witness :
    contiguousIds (add_email_entry exC exColl).2 ∧
      contiguousIds (add_emails_to_database [exC] exColl) ∧
      contiguousIds (remove_email "a@b.com" exColl).2 ∧
      contiguousIds (optimize_batches 57 exColl) ∧
      ((remove_email_from_database "a@b.com" exColl).2.map
        (fun b => b.id)).Sublist (exColl.map (fun b => b.id)) :=
  C2_amended_contiguity exC [exC] "a@b.com" 57 exColl (by decide)

/-! ### Claim C10: removal removes every match -/

theorem flattenEmails_cons (b : Batch) (bs : List Batch) :
    flattenEmails (b :: bs) = b.emails ++ flattenEmails bs := by
  simp [flattenEmails]

theorem flatten_scrub_filterMap (low : String) (bs : List Batch) :
    flattenEmails (bs.filterMap (fun b =>
        if batchHasMatch low b && (scrubBatch low b).emails.isEmpty then none
        else some (scrubBatch low b))) =
      (flattenEmails bs).filter (fun en => lowerStr en.email != low) := by
  induction bs with
  | nil => rfl
  | cons b rest ih =>
      rw [List.filterMap_cons, flattenEmails_cons, List.filter_append]
      by_cases hcond :
          (batchHasMatch low b && (scrubBatch low b).emails.isEmpty) = true
      · rw [if_pos hcond, ih]
        have hemp : b.emails.filter (fun en => lowerStr en.email != low) = [] := by
          have := (Bool.and_eq_true _ _).mp hcond
          simpa [scrubBatch, List.isEmpty_iff] using this.2
        rw [hemp, List.nil_append]
      · rw [if_neg hcond, flattenEmails_cons, ih]
        rfl

theorem remove_db_found (s : String) (bs : List Batch)
    (hne : s ≠ "") (hat : s.data.contains '@' = true)
    (hfound : bs.any (batchHasMatch (lowerStr s)) = true) :
    (remove_email_from_database s bs).1 = true ∧
      flattenEmails (remove_email_from_database s bs).2 =
        (flattenEmails bs).filter (fun en => lowerStr en.email != lowerStr s) := by
  have hmem : '@' ∈ s.data := by simpa using hat
  have hv : (s == "" || !(s.data.contains '@')) = false := by
    simp [hne, hmem]
  simp only [remove_email_from_database, hv, Bool.false_eq_true, if_false, hfound,
    if_true]
  exact ⟨by trivial, flatten_scrub_filterMap (lowerStr s) bs⟩

/-- C10: when at least one stored entry (possibly several, spread over
several batches) matches the removal target up to case,
`remove_email_from_database` reports success and removes *all* matching
entries in one call: the result is the original entry sequence filtered of
every match, and no entry with that email remains anywhere. -/
theorem C10_remove_all_matches (s : String) (bs : List Batch)
    (hne : s ≠ "") (hat : s.data.contains '@' = true)
    (hmatch : ∃ b ∈ bs, ∃ en ∈ b.emails, lowerStr en.email = lowerStr s) :
    (remove_email_from_database s bs).1 = true ∧
      flattenEmails (remove_email_from_database s bs).2 =
        (flattenEmails bs).filter (fun en => lowerStr en.email != lowerStr s) ∧
      ∀ en ∈ flattenEmails (remove_email_from_database s bs).2,
        lowerStr en.email ≠ lowerStr s := by
  have hfound : bs.any (batchHasMatch (lowerStr s)) = true := by
    simp only [List.any_eq_true, batchHasMatch]
    rcases hmatch with ⟨b, hb, en, hen, hlow⟩
    exact ⟨b, hb, en, hen, by simp [hlow]⟩
  rcases remove_db_found s bs hne hat hfound with ⟨h1, h2⟩
  refine ⟨h1, h2, ?_⟩
  intro en hen
  rw [h2] at hen
  have := (List.mem_filter.mp hen).2
  simpa using this

/-- Witness for C10: removing `A@B.com` from `[[a@b.com], [c@d.com, a@b.com]]`
removes both case-insensitive matches at once. -/
theorem C10_witness :
    (remove_email_from_database "A@B.com"
        [{ id := 1, emails := [exA] }, { id := 2, emails := [exB, exA] }]).1 = true ∧
      flattenEmails (remove_email_from_database "A@B.com"
        [{ id := 1, emails := [exA] }, { id := 2, emails := [exB, exA] }]).2 =
        (flattenEmails [{ id := 1, emails := [exA] }, { id := 2, emails := [exB, exA] }]).filter
          (fun en => lowerStr en.email != lowerStr "A@B.com") ∧
      ∀ en ∈ flattenEmails (remove_email_from_database "A@B.com"
        [{ id := 1, emails := [exA] }, { id := 2, emails := [exB, exA] }]).2,
        lowerStr en.email ≠ lowerStr "A@B.com" :=
  C10_remove_all_matches "A@B.com"
    [{ id := 1, emails := [exA] }, { id := 2, emails := [exB, exA] }]
    (by decide) (by decide) (by decide)

/-! ### Claim C7: case-insensitive uniqueness invariant -/

theorem lowNe_symm : ∀ {x y : EmailEntry}, lowNe x y → lowNe y x :=
  fun h => Ne.symm h

theorem flattenEmails_append (l1 l2 : List Batch) :
    flattenEmails (l1 ++ l2) = flattenEmails l1 ++ flattenEmails l2 := by
  simp [flattenEmails]

theorem flatten_sublist (bs1 bs2 : List Batch) (h : bs1.Sublist bs2) :
    (flattenEmails bs1).Sublist (flattenEmails bs2) := by
  induction h with
  | slnil => simp
  | cons b h2 ih =>
      rw [flattenEmails_cons]
      exact ih.trans (List.sublist_append_right _ _)
  | cons₂ b h2 ih =>
      rw [flattenEmails_cons, flattenEmails_cons]
      exact List.Sublist.append (List.Sublist.refl _) ih

theorem flatten_appendToLast (x : EmailEntry) (bs : List Batch) (h : bs ≠ []) :
    flattenEmails (appendToLast x bs) = flattenEmails bs ++ [x] := by
  induction bs with
  | nil => exact absurd rfl h
  | cons b rest ih =>
      cases rest with
      | nil => simp [appendToLast, flattenEmails]
      | cons c cs =>
          rw [appendToLast_cons_of_ne_nil x b (c :: cs) (by simp),
            flattenEmails_cons, flattenEmails_cons, ih (by simp),
            List.append_assoc]

theorem lastHasRoom_ne_nil (bs : List Batch) (h : lastHasRoom bs = true) :
    bs ≠ [] := by
  intro hnil
  subst hnil
  simp [lastHasRoom] at h

theorem flatten_add_email_entry (e : EmailEntry) (bs : List Batch)
    (h : is_email_exists e.email bs = false) :
    flattenEmails (add_email_entry e bs).2 = flattenEmails bs ++ [storedEntry e] := by
  unfold add_email_entry
  rw [if_neg (by simp [h])]
  split
  · rename_i hroom
    exact flatten_appendToLast _ bs (lastHasRoom_ne_nil bs hroom)
  · rw [flattenEmails_append]
    simp [flattenEmails]

theorem is_email_exists_false_flatten (em : String) (bs : List Batch) :
    is_email_exists em bs = false ↔
      ∀ en ∈ flattenEmails bs, lowerStr en.email ≠ lowerStr em := by
  rw [is_email_exists_false_iff]
  constructor
  · intro h en hen
    rcases List.mem_flatten.mp hen with ⟨es, hes, hin⟩
    rcases List.mem_map.mp hes with ⟨b, hb, rfl⟩
    exact h b hb en hin
  · intro h b hb en hen
    exact h en (List.mem_flatten.mpr ⟨b.emails, List.mem_map_of_mem _ hb, hen⟩)

theorem unique_add_email_entry (e : EmailEntry) (bs : List Batch)
    (hu : UniqueEmails bs) : UniqueEmails (add_email_entry e bs).2 := by
  by_cases h : is_email_exists e.email bs = true
  · unfold add_email_entry
    rw [if_pos h]
    exact hu
  · have h2 : is_email_exists e.email bs = false := by simpa using h
    unfold UniqueEmails
    rw [flatten_add_email_entry e bs h2]
    rw [List.pairwise_append]
    refine ⟨hu, by simp, ?_⟩
    intro a ha x hx
    rw [List.mem_singleton] at hx
    subst hx
    exact (is_email_exists_false_flatten e.email bs).mp h2 a ha

theorem popFirst_sublist (low : String) (l r : List EmailEntry)
    (h : popFirst low l = some r) : r.Sublist l := by
  induction l generalizing r with
  | nil => simp [popFirst] at h
  | cons en rest ih =>
      unfold popFirst at h
      split at h
      · cases h
        exact List.sublist_cons_self _ _
      · cases hr : popFirst low rest with
        | none => rw [hr] at h; simp at h
        | some r2 =>
            rw [hr] at h
            have h2 : en :: r2 = r := by simpa using h
            subst h2
            exact (ih r2 hr).cons₂ _

theorem removeFirstBatches_flatten_sublist (low : String) (bs r : List Batch)
    (h : removeFirstBatches low bs = some r) :
    (flattenEmails r).Sublist (flattenEmails bs) := by
  induction bs generalizing r with
  | nil => simp [removeFirstBatches] at h
  | cons b rest ih =>
      unfold removeFirstBatches at h
      cases hp : popFirst low b.emails with
      | some es =>
          rw [hp] at h
          cases h
          rw [flattenEmails_cons, flattenEmails_cons]
          exact List.Sublist.append (popFirst_sublist low b.emails es hp)
            (List.Sublist.refl _)
      | none =>
          rw [hp] at h
          cases hr : removeFirstBatches low rest with
          | none => rw [hr] at h; simp at h
          | some r2 =>
              rw [hr] at h
              have h2 : b :: r2 = r := by simpa using h
              subst h2
              rw [flattenEmails_cons, flattenEmails_cons]
              exact List.Sublist.append (List.Sublist.refl _) (ih r2 hr)

theorem renumberFrom_flatten (n : Nat) (bs : List Batch) :
    flattenEmails (renumberFrom n bs) = flattenEmails bs := by
  induction bs generalizing n with
  | nil => rfl
  | cons b rest ih =>
      rw [renumberFrom, flattenEmails_cons, flattenEmails_cons, ih]

theorem remove_email_flatten_sublist (s : String) (bs : List Batch) :
    (flattenEmails (remove_email s bs).2).Sublist (flattenEmails bs) := by
  unfold remove_email
  cases hr : removeFirstBatches (lowerStr s) bs with
  | none => exact List.Sublist.refl _
  | some bs2 =>
      simp only
      rw [renumberFrom_flatten]
      exact (flatten_sublist _ _ (List.filter_sublist bs2)).trans
        (removeFirstBatches_flatten_sublist (lowerStr s) bs bs2 hr)

theorem remove_db_flatten_sublist (s : String) (bs : List Batch) :
    (flattenEmails (remove_email_from_database s bs).2).Sublist (flattenEmails bs) := by
  simp only [remove_email_from_database]
  split
  · exact List.Sublist.refl _
  · split
    · rw [flatten_scrub_filterMap]
      exact List.filter_sublist _
    · exact List.Sublist.refl _

theorem firstFit_flatten_perm (x : EmailEntry) (bs r : List Batch)
    (h : firstFit x bs = some r) :
    (flattenEmails r).Perm (x :: flattenEmails bs) := by
  induction bs generalizing r with
  | nil => simp [firstFit] at h
  | cons b rest ih =>
      unfold firstFit at h
      split at h
      · cases h
        rw [flattenEmails_cons, flattenEmails_cons]
        exact List.Perm.append_right _ (List.perm_append_singleton x b.emails)
      · cases hr : firstFit x rest with
        | none => rw [hr] at h; simp at h
        | some r2 =>
            rw [hr] at h
            have h2 : b :: r2 = r := by simpa using h
            subst h2
            rw [flattenEmails_cons, flattenEmails_cons]
            exact (List.Perm.append_left _ (ih r2 hr)).trans List.perm_middle

theorem addOneFirstFit_flatten_perm (x : EmailEntry) (bs : List Batch) :
    (flattenEmails (addOneFirstFit x bs)).Perm (x :: flattenEmails bs) := by
  unfold addOneFirstFit
  cases hf : firstFit x bs with
  | some r => exact firstFit_flatten_perm x bs r hf
  | none =>
      simp only
      rw [flattenEmails_append]
      have : flattenEmails [({ id := newBatchId bs, emails := [x] } : Batch)] = [x] := by
        simp [flattenEmails]
      rw [this]
      exact List.perm_append_singleton x _

theorem unique_foldl_firstFit (ts : List EmailEntry) (bs : List Batch)
    (hu : UniqueEmails bs)
    (hts : ∀ x ∈ ts, ∀ en ∈ flattenEmails bs, lowerStr en.email ≠ lowerStr x.email)
    (hpw : ts.Pairwise (fun a b => lowerStr a.email ≠ lowerStr b.email)) :
    UniqueEmails (ts.foldl (fun acc x => addOneFirstFit x acc) bs) := by
  induction ts generalizing bs with
  | nil => exact hu
  | cons t ts ih =>
      rw [List.foldl_cons]
      have hperm := addOneFirstFit_flatten_perm t bs
      have hu2 : UniqueEmails (addOneFirstFit t bs) := by
        unfold UniqueEmails
        rw [List.Perm.pairwise_iff (fun h => lowNe_symm h) hperm, List.pairwise_cons]
        exact ⟨fun en hen => Ne.symm (hts t (by simp) en hen), hu⟩
      refine ih (addOneFirstFit t bs) hu2 ?_ hpw.of_cons
      intro x hx en hen
      rcases List.mem_cons.mp ((hperm.mem_iff).mp hen) with hent | henb
      · subst hent
        exact (List.pairwise_cons.mp hpw).1 x hx
      · exact hts x (by simp [hx]) en henb

theorem filterNewEmails_spec (es : List EmailEntry) (seen : List String) :
    (∀ x ∈ filterNewEmails es seen, x.email ≠ "" ∧ lowerStr x.email ∉ seen) ∧
      (filterNewEmails es seen).Pairwise
        (fun a b => lowerStr a.email ≠ lowerStr b.email) := by
  induction es generalizing seen with
  | nil => simp [filterNewEmails]
  | cons e rest ih =>
      unfold filterNewEmails
      split
      · rename_i hcond
        have hne : e.email ≠ "" := by
          have := ((Bool.and_eq_true _ _).mp hcond).1
          simpa using this
        have hnotseen : lowerStr e.email ∉ seen := by
          have := ((Bool.and_eq_true _ _).mp hcond).2
          simpa using this
        constructor
        · intro x hx
          rcases List.mem_cons.mp hx with rfl | hx2
          · exact ⟨hne, hnotseen⟩
          · rcases (ih (lowerStr e.email :: seen)).1 x hx2 with ⟨h1, h2⟩
            exact ⟨h1, fun hc => h2 (by simp [hc])⟩
        · rw [List.pairwise_cons]
          refine ⟨?_, (ih (lowerStr e.email :: seen)).2⟩
          intro b hb
          have := ((ih (lowerStr e.email :: seen)).1 b hb).2
          intro heq
          exact this (by simp [heq])
      · exact ih seen

theorem unique_add_emails_to_database (es : List EmailEntry) (bs : List Batch)
    (hu : UniqueEmails bs) : UniqueEmails (add_emails_to_database es bs) := by
  unfold add_emails_to_database
  rcases filterNewEmails_spec es (existingLower bs) with ⟨hmem, hpw⟩
  refine unique_foldl_firstFit _ bs hu ?_ hpw
  intro x hx en hen heq
  rcases hmem x hx with ⟨hne, hnotin⟩
  by_cases hene : en.email = ""
  · have h1 : lowerStr en.email = "" := by simp [hene, lowerStr]
    have h2 : lowerStr x.email ≠ "" := by
      intro hc
      apply hne
      have hd : x.email.data.map Char.toLower = [] := congrArg String.data hc
      have hnil : x.email.data = [] := by simpa using hd
      cases hx2 : x.email
      simp only [hx2] at hnil
      simp [hnil]
    exact h2 (by rw [← heq, h1])
  · exact hnotin ((mem_existingLower _ bs).mpr ⟨en, hen, hene, heq⟩)

theorem unique_remove_email (s : String) (bs : List Batch)
    (hu : UniqueEmails bs) : UniqueEmails (remove_email s bs).2 :=
  List.Pairwise.sublist (remove_email_flatten_sublist s bs) hu

theorem unique_remove_db (s : String) (bs : List Batch)
    (hu : UniqueEmails bs) : UniqueEmails (remove_email_from_database s bs).2 :=
  List.Pairwise.sublist (remove_db_flatten_sublist s bs) hu

theorem unique_optimize (k : Nat) (bs : List Batch)
    (hu : UniqueEmails bs) : UniqueEmails (optimize_batches k bs) := by
  unfold UniqueEmails
  rw [optimize_preserves_flatten]
  exact hu

/-- C7: in every collection reachable from the empty database by the add,
remove and optimize operations, no two stored entries (in the same batch or
in different ones) have emails equal up to case — even when a single
multi-entry add receives the same email more than once. -/
theorem C7_unique_emails_invariant (bs : List Batch) (h : Reachable bs) :
    (flattenEmails bs).Pairwise lowNe := by
  induction h with
  | empty => simp [flattenEmails]
  | addOne e bs2 h2 ih => exact unique_add_email_entry e bs2 ih
  | addMany es bs2 h2 ih => exact unique_add_emails_to_database es bs2 ih
  | remOne s bs2 h2 ih => exact unique_remove_email s bs2 ih
  | remMany s bs2 h2 ih => exact unique_remove_db s bs2 ih
  | opt bs2 h2 ih => exact unique_optimize 57 bs2 ih

/-- Witness for C7: a single multi-entry add whose input repeats `a@b.com`
still yields a collection with case-insensitively unique emails. -/
theorem C7_witness :
    (flattenEmails (add_emails_to_database [exA, exA, exB] [])).Pairwise lowNe :=
  C7_unique_emails_invariant (add_emails_to_database [exA, exA, exB] [])
    (Reachable.addMany [exA, exA, exB] [] Reachable.empty)

/-! ### Claim C8: the tokenizer -/

theorem splitUnprot_ne_nil (l : List Char) (flag : Bool) :
    splitUnprot l flag ≠ [] := by
  induction l generalizing flag with
  | nil => simp [splitUnprot]
  | cons c cs ih =>
      unfold splitUnprot
      split
      · simp
      · rcases List.exists_cons_of_ne_nil (ih (updFlag c flag)) with ⟨hd, tl, heq⟩
        rw [heq]
        simp [List.modifyHead]

theorem emitFrags_cons (c : List Char) (cs : List (List Char)) :
    emitFrags (c :: cs) = flushFrag c ++ emitFrags cs := by
  by_cases h : String.mk (trimWs c) = "" <;>
    simp [emitFrags, flushFrag, List.filter_cons, h]

theorem modifyHead_nil_append (l : List (List Char)) :
    l.modifyHead (fun f => [] ++ f) = l := by
  cases l <;> simp [List.modifyHead]

theorem tokAux_eq (l : List Char) (cur : List Char) (flag : Bool) :
    tokAux l cur flag =
      emitFrags ((splitUnprot l flag).modifyHead (fun f => cur ++ f)) := by
  induction l generalizing cur flag with
  | nil =>
      show flushFrag cur = emitFrags (List.modifyHead (fun f => cur ++ f) [[]])
      simp only [List.modifyHead, emitFrags_cons]
      simp [emitFrags]
  | cons c cs ih =>
      simp only [tokAux, splitUnprot]
      split
      · rw [ih [] _, modifyHead_nil_append]
        simp only [List.modifyHead]
        rw [emitFrags_cons]
        simp
      · rw [ih (cur ++ [c]) _]
        rcases List.exists_cons_of_ne_nil
          (splitUnprot_ne_nil cs (updFlag c flag)) with ⟨hd, tl, heq⟩
        rw [heq]
        simp only [List.modifyHead]
        simp

/-- C8: the tokenizer splits exactly at the semicolons met while the
inside-angle-brackets flag (set on `<`, cleared on `>`) is false, keeping
every other character, and outputs the ordered whitespace-trimmed nonempty
fragments; in particular `<a;b@x.com>` stays one fragment. -/
theorem C8_tokenizer_spec :
    (∀ s : String, splitEntries s = tokenizeSpec s) ∧
      splitEntries "<a;b@x.com>" = ["<a;b@x.com>"] := by
  constructor
  · intro s
    rw [splitEntries, tokenizeSpec, tokAux_eq, modifyHead_nil_append]
  · decide

/-! ### Claim C9: guarantees of the entry parser -/

theorem localChar_not_ws (c : Char) (h : isLocalChar c = true) : isWsChar c = false := by
  cases hw : isWsChar c
  · rfl
  · exfalso
    have hc : ((c = ' ' ∨ c = '\t') ∨ c = '\r') ∨ c = '\n' := by
      simpa [isWsChar, Char.isWhitespace] using hw
    rcases hc with ((rfl | rfl) | rfl) | rfl <;> exact absurd h (by decide)

theorem domainChar_not_ws (c : Char) (h : isDomainChar c = true) : isWsChar c = false := by
  cases hw : isWsChar c
  · rfl
  · exfalso
    have hc : ((c = ' ' ∨ c = '\t') ∨ c = '\r') ∨ c = '\n' := by
      simpa [isWsChar, Char.isWhitespace] using hw
    rcases hc with ((rfl | rfl) | rfl) | rfl <;> exact absurd h (by decide)

theorem alpha_not_ws (c : Char) (h : c.isAlpha = true) : isWsChar c = false := by
  cases hw : isWsChar c
  · rfl
  · exfalso
    have hc : ((c = ' ' ∨ c = '\t') ∨ c = '\r') ∨ c = '\n' := by
      simpa [isWsChar, Char.isWhitespace] using hw
    rcases hc with ((rfl | rfl) | rfl) | rfl <;> exact absurd h (by decide)

theorem domTldOk_parts (d : List Char) (h : domTldOk d = true) :
    ∃ dom tld, d = dom ++ '.' :: tld ∧ dom ≠ [] ∧ dom.all isDomainChar = true ∧
      2 ≤ tld.length ∧ tld.all Char.isAlpha = true := by
  unfold domTldOk at h
  rw [List.any_eq_true] at h
  rcases h with ⟨j, hjr, hconds⟩
  have h0 : 0 < j := by
    have := ((Bool.and_eq_true _ _).mp ((Bool.and_eq_true _ _).mp
      ((Bool.and_eq_true _ _).mp hconds).1).1).1
    simpa using this
  have hget : d.get? j = some '.' := by
    have := ((Bool.and_eq_true _ _).mp ((Bool.and_eq_true _ _).mp
      ((Bool.and_eq_true _ _).mp hconds).1).1).2
    simpa using this
  have htake : (d.take j).all isDomainChar = true :=
    ((Bool.and_eq_true _ _).mp ((Bool.and_eq_true _ _).mp hconds).1).2
  have htld : tldOk (d.drop (j + 1)) = true :=
    ((Bool.and_eq_true _ _).mp hconds).2
  rcases List.get?_eq_some.mp hget with ⟨hj, hval⟩
  have hdecomp : d = d.take j ++ '.' :: d.drop (j + 1) := by
    have h1 := List.take_append_drop j d
    have h2 : d.drop j = '.' :: d.drop (j + 1) := by
      rw [List.drop_eq_getElem_cons hj]
      have hv2 : d[j] = '.' := by simpa [List.get_eq_getElem] using hval
      rw [hv2]
    rw [h2] at h1
    exact h1.symm
  have hlen2 : 2 ≤ (d.drop (j + 1)).length := by
    have := ((Bool.and_eq_true _ _).mp htld).1
    simpa [tldOk] using this
  have halpha : (d.drop (j + 1)).all Char.isAlpha = true :=
    ((Bool.and_eq_true _ _).mp htld).2
  refine ⟨d.take j, d.drop (j + 1), hdecomp, ?_, htake, hlen2, halpha⟩
  intro hnil
  have : (d.take j).length = 0 := by rw [hnil]; rfl
  rw [List.length_take] at this
  omega

theorem matchCore_parts (l : List Char) (h : matchCore l = true) :
    ∃ loc dom tld, l = loc ++ '@' :: (dom ++ '.' :: tld) ∧ loc ≠ [] ∧
      loc.all isLocalChar = true ∧ dom ≠ [] ∧ dom.all isDomainChar = true ∧
      2 ≤ tld.length ∧ tld.all Char.isAlpha = true := by
  unfold matchCore at h
  cases hd : l.dropWhile (fun c => c != '@') with
  | nil => rw [hd] at h; simp at h
  | cons a rest =>
      rw [hd] at h
      split at h
      · rename_i domainPart heq
        injection heq with ha hrest
        subst ha
        subst hrest
        have hconds := h
        have hne : ¬(l.takeWhile (fun c => c != '@')).isEmpty = true := by
          have := ((Bool.and_eq_true _ _).mp ((Bool.and_eq_true _ _).mp hconds).1).1
          simpa using this
        have hall : (l.takeWhile (fun c => c != '@')).all isLocalChar = true :=
          ((Bool.and_eq_true _ _).mp ((Bool.and_eq_true _ _).mp hconds).1).2
        have hdom : domTldOk rest = true := ((Bool.and_eq_true _ _).mp hconds).2
        rcases domTldOk_parts rest hdom with ⟨dom, tld, hdec, hdnil, hdall, hlen, hta⟩
        refine ⟨l.takeWhile (fun c => c != '@'), dom, tld, ?_, ?_, hall, hdnil, hdall,
          hlen, hta⟩
        · conv_lhs => rw [← List.takeWhile_append_dropWhile (fun c => c != '@') l]
          rw [hd, hdec]
        · intro hnil
          rw [hnil] at hne
          exact hne rfl
      · exact absurd h (by simp)

theorem matchCore_ne_nil (l : List Char) (h : matchCore l = true) : l ≠ [] := by
  rcases matchCore_parts l h with ⟨loc, dom, tld, rfl, -, -, -, -, -, -⟩
  simp

theorem matchCore_not_ws (l : List Char) (h : matchCore l = true) :
    ∀ c ∈ l, isWsChar c = false := by
  rcases matchCore_parts l h with ⟨loc, dom, tld, rfl, -, hloc, -, hdom, -, htld⟩
  intro c hc
  rcases List.mem_append.mp hc with hc1 | hc2
  · exact localChar_not_ws c (List.all_eq_true.mp hloc c hc1)
  · rcases List.mem_cons.mp hc2 with rfl | hc3
    · decide
    · rcases List.mem_append.mp hc3 with hc4 | hc5
      · exact domainChar_not_ws c (List.all_eq_true.mp hdom c hc4)
      · rcases List.mem_cons.mp hc5 with rfl | hc6
        · decide
        · exact alpha_not_ws c (List.all_eq_true.mp htld c hc6)

theorem dropWhile_eq_self_of (p : Char → Bool) (l : List Char)
    (h : ∀ c ∈ l, p c = false) : l.dropWhile p = l := by
  cases l with
  | nil => rfl
  | cons a t =>
      rw [List.dropWhile_cons, if_neg (by simp [h a (by simp)])]

theorem trimWs_eq_self (l : List Char) (h : ∀ c ∈ l, isWsChar c = false) :
    trimWs l = l := by
  unfold trimWs
  rw [dropWhile_eq_self_of isWsChar l h,
    dropWhile_eq_self_of isWsChar l.reverse (fun c hc => h c (List.mem_reverse.mp hc)),
    List.reverse_reverse]

theorem String_mk_ne_empty (l : List Char) (h : l ≠ []) : String.mk l ≠ "" := by
  intro hc
  exact h (congrArg String.data hc)

theorem pat1core_email (l n em : List Char) (h : pat1core l = some (n, em)) :
    matchCore em = true := by
  simp only [pat1core] at h
  split at h
  · split at h
    · split at h
      · rename_i hcond
        injection h with h2
        injection h2 with hn hemail
        subst hemail
        exact ((Bool.and_eq_true _ _).mp hcond).1
      · simp at h
    · simp at h
  · simp at h

theorem pat2core_email (l em : List Char) (h : pat2core l = some em) :
    matchCore em = true := by
  simp only [pat2core] at h
  split at h
  · split at h
    · split at h
      · rename_i hcond
        injection h with h2
        subst h2
        exact hcond
      · simp at h
    · simp at h
  · simp at h

theorem pat3core_email (l em : List Char) (h : pat3core l = some em) :
    matchCore em = true := by
  simp only [pat3core] at h
  split at h
  · rename_i hcond
    injection h with h2
    subst h2
    exact hcond
  · simp at h

theorem matchDollar_some {α : Type} (p : List Char → Option α) (l : List Char) (r : α)
    (h : matchDollar p l = some r) : ∃ l2, p l2 = some r := by
  unfold matchDollar at h
  split at h
  · rename_i r2 heq
    cases h
    exact ⟨l, heq⟩
  · split at h
    · exact ⟨l.dropLast, h⟩
    · simp at h

theorem parseFragment_spec (frag : String) (e : EmailEntry)
    (h : parseFragment frag = some (some e)) :
    e.email ≠ "" ∧ matchCore e.email.data = true ∧
      (e.name = "" → e.full_entry = "<" ++ e.email ++ ">;") ∧
      (e.name ≠ "" → e.full_entry = "\"" ++ e.name ++ "\" <" ++ e.email ++ ">;") := by
  simp only [parseFragment] at h
  split at h
  · rename_i nameRaw emailRaw heq
    rcases matchDollar_some _ _ _ heq with ⟨l2, hp⟩
    have hcore : matchCore emailRaw = true := pat1core_email l2 nameRaw emailRaw hp
    have htrim : trimWs emailRaw = emailRaw :=
      trimWs_eq_self emailRaw (matchCore_not_ws emailRaw hcore)
    split at h
    · simp at h
    · rename_i nc hnc
      cases h
      refine ⟨?_, ?_, ?_, ?_⟩
      · exact String_mk_ne_empty _ (by rw [htrim]; exact matchCore_ne_nil _ hcore)
      · show matchCore (String.mk (trimWs emailRaw)).data = true
        rw [htrim]
        exact hcore
      · intro hname
        show mkFullEntry _ _ = _
        rw [mkFullEntry, if_neg (not_not_intro hname)]
      · intro hname
        show mkFullEntry _ _ = _
        rw [mkFullEntry, if_pos hname]
  · split at h
    · rename_i emailRaw heq
      rcases matchDollar_some _ _ _ heq with ⟨l2, hp⟩
      have hcore : matchCore emailRaw = true := pat2core_email l2 emailRaw hp
      have htrim : trimWs emailRaw = emailRaw :=
        trimWs_eq_self emailRaw (matchCore_not_ws emailRaw hcore)
      cases h
      refine ⟨?_, ?_, fun _ => rfl, fun hc => absurd rfl hc⟩
      · exact String_mk_ne_empty _ (by rw [htrim]; exact matchCore_ne_nil _ hcore)
      · show matchCore (String.mk (trimWs emailRaw)).data = true
        rw [htrim]
        exact hcore
    · split at h
      · rename_i emailRaw heq
        rcases matchDollar_some _ _ _ heq with ⟨l2, hp⟩
        have hcore : matchCore emailRaw = true := pat3core_email l2 emailRaw hp
        have htrim : trimWs emailRaw = emailRaw :=
          trimWs_eq_self emailRaw (matchCore_not_ws emailRaw hcore)
        cases h
        refine ⟨?_, ?_, fun _ => rfl, fun hc => absurd rfl hc⟩
        · exact String_mk_ne_empty _ (by rw [htrim]; exact matchCore_ne_nil _ hcore)
        · show matchCore (String.mk (trimWs emailRaw)).data = true
          rw [htrim]
          exact hcore
      · simp at h

theorem parseFragments_mem (fs : List String) (entries : List EmailEntry)
    (h : parseFragments fs = some entries) :
    ∀ e ∈ entries, ∃ f ∈ fs, parseFragment f = some (some e) := by
  induction fs generalizing entries with
  | nil =>
      cases h
      intro e he
      simp at he
  | cons f fs ih =>
      unfold parseFragments at h
      split at h
      · simp at h
      · rename_i heq
        intro e he
        rcases ih _ h e he with ⟨f2, hf2, hp⟩
        exact ⟨f2, by simp [hf2], hp⟩
      · rename_i e2 heq
        cases hr : parseFragments fs with
        | none => rw [hr] at h; simp at h
        | some r =>
            rw [hr] at h
            have h2 : e2 :: r = entries := by simpa using h
            subst h2
            intro e he
            rcases List.mem_cons.mp he with rfl | he2
            · exact ⟨f, by simp, heq⟩
            · rcases ih r hr e he2 with ⟨f2, hf2, hp⟩
              exact ⟨f2, by simp [hf2], hp⟩

theorem parseFragments_length (fs : List String) (entries : List EmailEntry)
    (h : parseFragments fs = some entries) :
    entries.length = (fs.filter fragHasEntry).length := by
  induction fs generalizing entries with
  | nil => cases h; rfl
  | cons f fs ih =>
      unfold parseFragments at h
      split at h
      · simp at h
      · rename_i heq
        rw [List.filter_cons, if_neg (by simp [fragHasEntry, heq])]
        exact ih _ h
      · rename_i e2 heq
        cases hr : parseFragments fs with
        | none => rw [hr] at h; simp at h
        | some r =>
            rw [hr] at h
            have h2 : e2 :: r = entries := by simpa using h
            subst h2
            rw [List.filter_cons, if_pos (by simp [fragHasEntry, heq])]
            simp [ih r hr]

/-- C9: whenever the parser returns (it can instead die with the
`IndexError` of `parse_name`), every emitted entry has a nonempty email
whose text fully matches the core email pattern, its `full_entry` is
`"{name}" <{email}>;` for a nonempty parsed name and `<{email}>;` for an
empty one, and only the fragments matched by some pattern contribute an
entry. -/
theorem C9_parser_guarantees :
    (∀ (args : List String) (entries : List EmailEntry),
        parse_email_entries args = some entries → ∀ e ∈ entries,
          e.email ≠ "" ∧ matchCore e.email.data = true ∧
            (e.name = "" → e.full_entry = "<" ++ e.email ++ ">;") ∧
            (e.name ≠ "" →
              e.full_entry = "\"" ++ e.name ++ "\" <" ++ e.email ++ ">;")) ∧
      (∀ (args : List String) (entries : List EmailEntry),
        parse_email_entries args = some entries →
          entries.length =
            ((splitEntries (String.intercalate " " args)).filter fragHasEntry).length) := by
  constructor
  · intro args entries he e hmem
    unfold parse_email_entries at he
    split at he
    · cases he
      simp at hmem
    · rcases parseFragments_mem _ _ he e hmem with ⟨f, hf, hp⟩
      exact parseFragment_spec f e hp
  · intro args entries he
    unfold parse_email_entries at he
    split at he
    · rename_i hargs
      rw [List.isEmpty_iff] at hargs
      subst hargs
      cases he
      rfl
    · exact parseFragments_length _ _ he

/-- The reachability of the `IndexError` path: the fragment
`'\t' <a@b.com>` leaves `parse_name` the whitespace-only name `"\t"`, whose
`split()` is empty, so the Python code crashes and the whole parse returns
nothing. -/
theorem parse_name_crash_example :
    parse_name "\t" = none ∧ parse_email_entries ["'\t' <a@b.com>"] = none := by
  constructor
  · decide
  · decide

/-- Witness for C9 at the concrete input `a@b.com`: the parse succeeds with
the single entry `⟨a@b.com, "", <a@b.com>;, ...⟩`, which satisfies every
guarantee. -/
theorem C9_witness :
    (⟨"a@b.com", "", "<a@b.com>;", "", "", ""⟩ : EmailEntry).email ≠ "" ∧
      matchCore (⟨"a@b.com", "", "<a@b.com>;", "", "", ""⟩ : EmailEntry).email.data = true ∧
      ((⟨"a@b.com", "", "<a@b.com>;", "", "", ""⟩ : EmailEntry).name = "" →
        (⟨"a@b.com", "", "<a@b.com>;", "", "", ""⟩ : EmailEntry).full_entry =
          "<" ++ (⟨"a@b.com", "", "<a@b.com>;", "", "", ""⟩ : EmailEntry).email ++ ">;") ∧
      ((⟨"a@b.com", "", "<a@b.com>;", "", "", ""⟩ : EmailEntry).name ≠ "" →
        (⟨"a@b.com", "", "<a@b.com>;", "", "", ""⟩ : EmailEntry).full_entry =
          "\"" ++ (⟨"a@b.com", "", "<a@b.com>;", "", "", ""⟩ : EmailEntry).name ++ "\" <" ++
            (⟨"a@b.com", "", "<a@b.com>;", "", "", ""⟩ : EmailEntry).email ++ ">;") :=
  C9_parser_guarantees.1 ["a@b.com"] [⟨"a@b.com", "", "<a@b.com>;", "", "", ""⟩]
    (by decide) ⟨"a@b.com", "", "<a@b.com>;", "", "", ""⟩ (by decide)

end Semlist
